import Mathlib

/-!
Verification of core algorithms of the tenet distributed radiative-transfer
code against its specification.

The Rust source is embedded shallowly: machine floats (f64) are modelled by
exact reals or rationals, u64 keys by natural numbers bounded by 2^64 - 1,
arena indices by natural numbers, and fallible or panicking code paths by
Option results. Struct and function names follow the source where Lean
allows it.
-/

namespace Tenet

/-! ### Sweep solver: outgoing flux (src/sweep/mod.rs, src/sweep/site.rs) -/

/-- Embeds Site.source_per_direction_bin (src/sweep/site.rs, lines 43-45):
the photon source rate of the cell divided by the number of direction bins. -/
noncomputable def source_per_direction_bin (source : ℝ) (numDirections : ℕ) : ℝ :=
  source / numDirections

/-- Embeds Sweep.get_outgoing_flux (src/sweep/mod.rs, lines 310-324).
Parameters protonMass and sigma stand for the physical constants PROTON_MASS
and SWEEP_HYDROGEN_ONLY_CROSS_SECTION; fluxTreshold is the configured
significant-flux threshold; incomingFlux is the accumulated incoming flux of
the task direction. The f64 exp of the source is modelled by Real.exp. -/
noncomputable def get_outgoing_flux (protonMass sigma fluxTreshold density
    ionizedHydrogenFraction source incomingFlux cellSize : ℝ)
    (numDirections : ℕ) : ℝ :=
  let neutralHydrogenNumberDensity :=
    density / protonMass * (1 - ionizedHydrogenFraction)
  let sourceBin := source_per_direction_bin source numDirections
  let flux := incomingFlux + sourceBin
  if flux < fluxTreshold then 0
  else
    let absorbedFraction :=
      Real.exp (-neutralHydrogenNumberDensity * sigma * cellSize)
    flux * absorbedFraction

/-! ### Sweep solver: timestep-level clamp (src/sweep/mod.rs, sweep_system) -/

/-- Embeds the level update at the end of sweep_system
(src/sweep/mod.rs, lines 483-487): the desired level proposed by the
change-timescale computation is clamped so that the cell never moves down
more than one level at a time, then stored. -/
def clamped_new_level (currentLevel desiredLevel : ℕ) : ℕ :=
  if desiredLevel + 1 < currentLevel then currentLevel - 1 else desiredLevel

/-! ### Sweep communicator drop (src/sweep/communicator.rs) -/

/-- Embeds the body of impl Drop for SweepCommunicator
(src/sweep/communicator.rs, lines 115-124). The per-rank request slots are
walked in order; for the first rank holding a pending request the code calls
wait_for_request and then RETURNS from drop. The result collects the ranks
that are actually waited on. A request handle is modelled as a natural
number. -/
def drop_waited_ranks : List (ℤ × Option ℕ) → List ℤ
  | [] => []
  | (rank, some _) :: _ => [rank]
  | (_, none) :: rest => drop_waited_ranks rest

/-- Ranks whose request slot still holds an outstanding send request when the
communicator is dropped; the claim states that all of them are waited on. -/
def pending_ranks (requests : List (ℤ × Option ℕ)) : List ℤ :=
  (requests.filter (fun r => r.2.isSome)).map (fun r => r.1)

/-! ### Delaunay 3D flip (src/voronoi/delaunay/impl_3d.rs, src/voronoi/face.rs) -/

/-- Embeds IntersectionType (src/voronoi/face.rs, lines 52-57). -/
inductive IntersectionType where
  | inside : IntersectionType
  | outsideOneEdge : IntersectionType
  | outsideTwoEdges : IntersectionType
deriving DecidableEq

/-- Embeds FaceData.get_intersection_type (src/voronoi/face.rs, lines 79-90):
r and s are the barycentric-style coordinates of the intersection of the
segment with the plane of the shared face; the number of violated constraints
among r < 0, s < 0 and r + s > 1 selects the type. The degenerate panicking
arm (three violations) is modelled as none. -/
def get_intersection_type (r s : ℚ) : Option IntersectionType :=
  let violated := [decide (r < 0), decide (s < 0), decide (1 < r + s)]
  match violated.count true with
  | 0 => some IntersectionType.inside
  | 1 => some IntersectionType.outsideOneEdge
  | 2 => some IntersectionType.outsideTwoEdges
  | _ => none

/-- Outcome of DelaunayTriangulation.flip (src/voronoi/delaunay/impl_3d.rs,
lines 228-257) for a given intersection type. -/
inductive FlipDecision where
  | twoToThreeFlip : FlipDecision
  | panicTodo : FlipDecision
  | skip : FlipDecision
deriving DecidableEq

/-- Embeds the match over the intersection type in
DelaunayTriangulation.flip (src/voronoi/delaunay/impl_3d.rs, lines 247-256):
Inside performs the 2-to-3 flip, OutsideOneEdge hits a todo macro and
panics (the 3-to-2 flip call is commented out), OutsideTwoEdges does
nothing. -/
def flip_dispatch : IntersectionType → FlipDecision
  | IntersectionType.inside => FlipDecision.twoToThreeFlip
  | IntersectionType.outsideOneEdge => FlipDecision.panicTodo
  | IntersectionType.outsideTwoEdges => FlipDecision.skip

/-- Embeds periodic_windows_3 (src/voronoi/utils.rs, lines 35-46): zips the
slice with its rotations by one and by two. The source writes the rotations
as v[1..] chained with v[0] and v[2..] chained with v[0], v[1]; on slices
longer than two elements, to which the source restricts the result by its
final filter, this equals drop-append-take. -/
def periodic_windows_3 {α : Type} (v : List α) : List (α × α × α) :=
  if 2 < v.length then
    (v.zip ((v.drop 1 ++ v.take 1).zip (v.drop 2 ++ v.take 2))).map
      (fun w => (w.1, w.2.1, w.2.2))
  else []

/-- Embeds the vertex choice of the new tetras built by
DelaunayTriangulation.two_to_three_flip (src/voronoi/delaunay/impl_3d.rs,
lines 259-316): for each periodic window ((fa, pa), (fb, pb), (f, other))
over the three points of the removed shared face, one tetra with vertices
p1, p2, pa, pb is inserted (p1 and p2 are the two points opposite the shared
face; orientation may later swap the first two slots, which permutes but
does not change the vertex set). The two original tetras are removed. -/
def two_to_three_flip_new_tetras (p1 p2 : ℕ) (sharedFace : ℕ × ℕ × ℕ) :
    List (ℕ × ℕ × ℕ × ℕ) :=
  (periodic_windows_3 [sharedFace.1, sharedFace.2.1, sharedFace.2.2]).map
    (fun w => (p1, p2, w.1, w.2.1))

/-! ### Halo iteration search radii (src/voronoi/constructor/halo_iteration.rs) -/

/-- Embeds SEARCH_SAFETY_FACTOR (halo_iteration.rs, line 21): all search
radii exceed the circumradius of the tetra by this factor. -/
def SEARCH_SAFETY_FACTOR : ℚ := 105 / 100

/-- Embeds SEARCH_RADIUS_INCREASE_FACTOR (halo_iteration.rs, line 27): the
factor by which search radii grow between iterations. -/
def SEARCH_RADIUS_INCREASE_FACTOR : ℚ := 125 / 100

/-- Embeds the local characteristic_length binding in
get_radius_search_data (halo_iteration.rs, line 116). -/
def characteristic_length : ℚ := 10 ^ 18

/-- Embeds the radius update of get_radius_search_data (halo_iteration.rs,
lines 124-136): an already-searched tetra multiplies its radius by the
increase factor, capped at circumradius times the safety factor; a tetra
searched for the first time (None) starts at circumradius times the safety
factor when the circumradius is below the characteristic length, and at the
characteristic length otherwise. -/
def next_search_radius (circumradius : ℚ) : Option ℚ → ℚ
  | some radius =>
    min (radius * SEARCH_RADIUS_INCREASE_FACTOR)
      (circumradius * SEARCH_SAFETY_FACTOR)
  | none =>
    if circumradius < characteristic_length then
      circumradius * SEARCH_SAFETY_FACTOR
    else characteristic_length

/-- Follows the claim and spec words, for comparison with the source: the
starting radius stated by the spec, min(1.05 x circumradius,
characteristic_length). -/
def spec_first_search_radius (circumradius : ℚ) : ℚ :=
  min (circumradius * SEARCH_SAFETY_FACTOR) characteristic_length

/-- Embeds UndecidedTetraInfo.search_radius_large_enough
(halo_iteration.rs, lines 56-58). -/
def search_radius_large_enough (searchRadius circumradius : ℚ) : Bool :=
  decide (circumradius * SEARCH_SAFETY_FACTOR ≤ searchRadius)

/-- Embeds the partition at the end of get_radius_search_data
(halo_iteration.rs, lines 146-148): a searched tetra stays in the undecided
list iff the arena still contains it and its search radius is not yet large
enough. -/
def remains_undecided (containsTetra : Bool) (searchRadius circumradius : ℚ) :
    Bool :=
  containsTetra && !(search_radius_large_enough searchRadius circumradius)

/-- Search radius emitted in round n (0-indexed) for a tetra that stays
undecided, obtained by iterating the update of get_radius_search_data from
the uninitialized (None) state. -/
def search_radius_after (circumradius : ℚ) : ℕ → ℚ
  | 0 => next_search_radius circumradius none
  | n + 1 =>
    next_search_radius circumradius (some (search_radius_after circumradius n))

/-! ### Positive orientation of inserted tetras
(src/voronoi/delaunay/impl_2d.rs, impl_3d.rs, src/voronoi/tetra_2d.rs) -/

/-- Modelled from the spec: the 3x3 determinant helper determinant3x3 of the
voronoi math module (src/voronoi/math.rs is not in the tree), the standard
cofactor expansion along the first row, used by the orientation predicates. -/
def determinant3x3 (a b c d e f g h i : ℚ) : ℚ :=
  a * (e * i - f * h) - b * (d * i - f * g) + c * (d * h - e * g)

/-- A 2D point with exact coordinates. -/
structure Point2 where
  x : ℚ
  y : ℚ

/-- A 3D point with exact coordinates. -/
structure Point3 where
  x : ℚ
  y : ℚ
  z : ℚ

/-- Embeds the determinant inside Tetra2dData.is_positively_oriented
(src/voronoi/tetra_2d.rs, lines 95-102): rows (1, p.x, p.y) for the three
vertices. The triangle is positively oriented iff this is positive; the
float code raises a PrecisionError when the sign cannot be decided, which in
the exact model is the excluded case of a zero determinant. -/
def orient2d (p1 p2 p3 : Point2) : ℚ :=
  determinant3x3 1 p1.x p1.y 1 p2.x p2.y 1 p3.x p3.y

/-- Modelled from the spec: the determinant inside the 3D
TetraData.is_positively_oriented (src/voronoi/tetra.rs is not in the tree).
Orientation of the tetra p1 p2 p3 p4 is the sign of the 4x4 determinant with
rows (1, p.x, p.y, p.z), written here, after subtracting the first row, as
the 3x3 determinant of the edge vectors from p1. -/
def orient3d (p1 p2 p3 p4 : Point3) : ℚ :=
  determinant3x3
    (p2.x - p1.x) (p2.y - p1.y) (p2.z - p1.z)
    (p3.x - p1.x) (p3.y - p1.y) (p3.z - p1.z)
    (p4.x - p1.x) (p4.y - p1.y) (p4.z - p1.z)

/-- Embeds TetraFace (a face index plus the optional opposing
tetra-and-point link). -/
structure TetraFace where
  face : ℕ
  opposing : Option (ℕ × ℕ)

/-- Embeds the 2D Tetra (a triangle: three point indices, three faces). -/
structure Tetra2 where
  p1 : ℕ
  p2 : ℕ
  p3 : ℕ
  f1 : TetraFace
  f2 : TetraFace
  f3 : TetraFace

/-- Embeds the 3D Tetra (four point indices, four faces). -/
structure Tetra3 where
  p1 : ℕ
  p2 : ℕ
  p3 : ℕ
  p4 : ℕ
  f1 : TetraFace
  f2 : TetraFace
  f3 : TetraFace
  f4 : TetraFace

/-- Embeds DelaunayTriangulation.make_positively_oriented_tetra
(src/voronoi/delaunay/impl_2d.rs, lines 23-47): when the triangle read from
the point arena (points) is not positively oriented, vertex indices p1, p2
and face entries f1, f2 are swapped before the tetra is stored. -/
def make_positively_oriented_tetra (points : ℕ → Point2) (t : Tetra2) :
    Tetra2 :=
  if 0 < orient2d (points t.p1) (points t.p2) (points t.p3) then t
  else
    { p1 := t.p2, p2 := t.p1, p3 := t.p3,
      f1 := t.f2, f2 := t.f1, f3 := t.f3 }

/-- Embeds DelaunayTriangulation.insert_positively_oriented_tetra
(src/voronoi/delaunay/impl_3d.rs, lines 68-120): the value returned is the
tetra actually stored into the tetra arena; when the tetra read from the
point arena is not positively oriented, vertices p1, p2 and faces f1, f2 are
swapped first. -/
def insert_positively_oriented_tetra (points : ℕ → Point3)
    (p1 p2 p3 p4 : ℕ) (f1 f2 f3 f4 : TetraFace) : Tetra3 :=
  if 0 < orient3d (points p1) (points p2) (points p3) (points p4) then
    ⟨p1, p2, p3, p4, f1, f2, f3, f4⟩
  else ⟨p2, p1, p3, p4, f2, f1, f3, f4⟩

/-! ### Domain decomposition (src/domain/decomposition.rs) -/

/-- Embeds K.MAX_VALUE for the 64-bit key (u64 MAX; decomposition.rs test
key Key1d and the Peano-Hilbert key both use a 64-bit word). -/
def KEY_MAX_VALUE : ℕ := 2 ^ 64 - 1

/-- Embeds K.MAX_DEPTH for the 64-bit key (decomposition.rs, Key1d). -/
def KEY_MAX_DEPTH : ℕ := 64

/-- Embeds Key.middle for the 64-bit key (decomposition.rs, Key1d):
end / 2 + start / 2 in integer division. -/
def key_middle (start endKey : ℕ) : ℕ :=
  endKey / 2 + start / 2

/-- Embeds Decomposer.get_search_result (decomposition.rs, lines 158-164):
once the probe depth has reached the maximal key depth the probe is accepted
(Equal); otherwise the load up to the probe is compared with the target load
per segment. Work values are modelled by exact rationals. -/
def get_search_result (maxDepth : ℕ) (load target : ℚ) (depth : ℕ) :
    Ordering :=
  if depth = maxDepth then Ordering.eq
  else if load < target then Ordering.lt
  else if target < load then Ordering.gt
  else Ordering.eq

/-- Embeds binary_search (decomposition.rs, lines 36-49). The Rust function
recurses with no structural bound; its termination relies on eval returning
Equal once the depth saturates, so the embedding carries explicit fuel and
returns none only if the fuel runs out (shown unreachable for the eval
functions the decomposer builds). The second component counts the eval
calls made. -/
def binary_search (middle : ℕ → ℕ → ℕ) (eval : ℕ → ℕ → Ordering) :
    ℕ → ℕ → ℕ → ℕ → Option (ℕ × ℕ)
  | 0, _, _, _ => none
  | fuel + 1, start, endKey, depth =>
    let pos := middle start endKey
    match eval pos depth with
    | Ordering.lt =>
      (binary_search middle eval fuel pos endKey (depth + 1)).map
        (fun r => (r.1, r.2 + 1))
    | Ordering.gt =>
      (binary_search middle eval fuel start pos (depth + 1)).map
        (fun r => (r.1, r.2 + 1))
    | Ordering.eq => some (pos, 1)

/-- Embeds Decomposer.find_cut_for_next_segment (decomposition.rs, lines
149-156) for the 64-bit key: the eval closure queries the load counter on
the range from the segment start to the probe and classifies it with
get_search_result. Fuel KEY_MAX_DEPTH + 1 suffices by
cut_search_terminates, so the none fallback is unreachable. -/
def find_cut_for_next_segment (load : ℕ → ℕ → ℚ) (target : ℚ)
    (start : ℕ) : ℕ :=
  match binary_search key_middle
      (fun cut depth =>
        get_search_result KEY_MAX_DEPTH (load start cut) target depth)
      (KEY_MAX_DEPTH + 1) start KEY_MAX_VALUE 0 with
  | some r => r.1
  | none => 0

/-- Embeds the loop of Decomposer.find_segments (decomposition.rs, lines
134-147): the first argument is the number of remaining cut searches
(num_segments - 1 at the top level); each segment starts where the previous
one ended and the final segment ends at the maximal key. -/
def find_segments_aux (load : ℕ → ℕ → ℚ) (target : ℚ) :
    ℕ → ℕ → List (ℕ × ℕ)
  | 0, start => [(start, KEY_MAX_VALUE)]
  | n + 1, start =>
    let e := find_cut_for_next_segment load target start
    (start, e) :: find_segments_aux load target n e

/-- Embeds Decomposer.find_segments (decomposition.rs, lines 134-147). -/
def find_segments (load : ℕ → ℕ → ℚ) (target : ℚ) (numSegments : ℕ) :
    List (ℕ × ℕ) :=
  find_segments_aux load target (numSegments - 1) 0

/-- Embeds the Decomposition struct (decomposition.rs, lines 51-56). -/
structure Decomposition where
  num_ranks : ℕ
  cuts : List ℕ
  loads : List ℚ
deriving DecidableEq

/-- Embeds Decomposition.new (decomposition.rs, lines 59-77): total load
over the full key range, target load per segment, segments from the
decomposer; the cuts are the segment ends and the loads are the counter
values over the segments. The function has no error path. -/
def decomposition_new (load : ℕ → ℕ → ℚ) (numRanks : ℕ) : Decomposition :=
  let totalLoad := load 0 KEY_MAX_VALUE
  let loadPerSegment := totalLoad / (numRanks : ℚ)
  let segments := find_segments load loadPerSegment numRanks
  { num_ranks := numRanks,
    cuts := segments.map (fun s => s.2),
    loads := segments.map (fun s => load s.1 s.2) }

/-- Semantic model of the Rust standard-library slice binary_search used by
Decomposition.get_owning_rank: classic bisection, returning ok at an index
holding the key or error at the insertion point. This matches the documented
contract of slice binary_search; on a strictly sorted slice the result is
unique. -/
def slice_binary_search_aux (xs : List ℕ) (key : ℕ) (left right : ℕ) :
    Except ℕ ℕ :=
  if h : left < right then
    if xs.getD (left + (right - left) / 2) 0 < key then
      slice_binary_search_aux xs key (left + (right - left) / 2 + 1) right
    else if key < xs.getD (left + (right - left) / 2) 0 then
      slice_binary_search_aux xs key left (left + (right - left) / 2)
    else Except.ok (left + (right - left) / 2)
  else Except.error left
termination_by right - left
decreasing_by all_goals omega

/-- Rust slice binary_search over the whole slice. -/
def slice_binary_search (xs : List ℕ) (key : ℕ) : Except ℕ ℕ :=
  slice_binary_search_aux xs key 0 xs.length

/-- Embeds Decomposition.get_owning_rank (decomposition.rs, lines 83-88):
binary search of the key in the cuts; a hit at index x yields rank x + 1 and
a miss yields the insertion point (the final cast to a 32-bit rank is
dropped; ranks are small). -/
def get_owning_rank (cuts : List ℕ) (key : ℕ) : ℕ :=
  match slice_binary_search cuts key with
  | Except.ok x => x + 1
  | Except.error e => e

/-- The number of cuts less than or equal to the key: the upper-bound index
that the claim states get_owning_rank computes. -/
def upper_bound_count (cuts : List ℕ) (key : ℕ) : ℕ :=
  cuts.countP (fun c => decide (c ≤ key))

end Tenet

namespace Tenet

/-! ### Theorems -/

/-- C1: for every sweep task, get_outgoing_flux returns zero when the
accumulated incoming flux plus the per-direction source is below the
significant-flux threshold, and otherwise returns that flux multiplied by
exp(-(density / protonMass) * (1 - ionizedFraction) * sigma * cellSize). -/
theorem get_outgoing_flux_formula (mp sigma thr density x source incoming L : ℝ)
    (D : ℕ) :
    get_outgoing_flux mp sigma thr density x source incoming L D =
      if incoming + source / D < thr then 0
      else (incoming + source / D) *
        Real.exp (-(density / mp) * (1 - x) * sigma * L) := by
  unfold get_outgoing_flux source_per_direction_bin
  dsimp only
  split
  · rfl
  · rw [show -(density / mp * (1 - x)) * sigma * L
        = -(density / mp) * (1 - x) * sigma * L from by ring]

/-- C5: the timestep level stored after a sweep is at least the previous
level minus one, whatever level the change-timescale computation proposes. -/
theorem clamped_new_level_at_most_one_below (currentLevel desiredLevel : ℕ) :
    currentLevel - 1 ≤ clamped_new_level currentLevel desiredLevel := by
  unfold clamped_new_level
  split <;> omega

/-- C8: dropping a SweepCommunicator whose request slots hold pending sends
for ranks 1 and 2 waits only on the first of them: the loop in the Drop
implementation returns right after the first wait, so rank 2 has a pending
request that is never waited on, although both ranks are pending. -/
theorem drop_waits_only_first_pending :
    drop_waited_ranks [(1, some 0), (2, some 0)] = [1] ∧
    pending_ranks [(1, some 0), (2, some 0)] = [1, 2] := by
  constructor <;> rfl

/-- C2: in the 3D flip step, an intersection inside the shared face leads to
the 2-to-3 flip and an intersection outside two edges is skipped, but an
intersection outside one edge does not perform a 3-to-2 flip: the code hits
a todo macro and panics (evaluated here at the coordinates of the violating
configuration from the tests in src/voronoi/face.rs). The 2-to-3 flip
replaces the two tetras by three new ones all sharing the edge p1 p2. -/
theorem flip_outside_one_edge_hits_todo :
    (get_intersection_type (-1/10) (1/2)).map flip_dispatch
        = some FlipDecision.panicTodo ∧
    (get_intersection_type (1/2) (1/4)).map flip_dispatch
        = some FlipDecision.twoToThreeFlip ∧
    (get_intersection_type (-1/10) (-1/10)).map flip_dispatch
        = some FlipDecision.skip ∧
    ∀ p1 p2 a b c, two_to_three_flip_new_tetras p1 p2 (a, b, c)
        = [(p1, p2, a, b), (p1, p2, b, c), (p1, p2, c, a)] := by
  refine ⟨?_, ?_, ?_, fun p1 p2 a b c => rfl⟩ <;>
    norm_num [get_intersection_type, flip_dispatch,
      List.count_cons, List.count_nil]

lemma one_le_safety : (1 : ℚ) ≤ SEARCH_SAFETY_FACTOR := by
  norm_num [SEARCH_SAFETY_FACTOR]

lemma char_length_pos : (0 : ℚ) < characteristic_length := by
  norm_num [characteristic_length]

/-- For a tetra whose circumradius is at least the characteristic length,
the radius searched in round n is the capped geometric growth
min(characteristic_length * 1.25 ^ n, circumradius * 1.05). -/
lemma search_radius_after_eq_min_of_ge (c : ℚ)
    (h : ¬ c < characteristic_length) : ∀ n : ℕ,
    search_radius_after c n =
      min (characteristic_length * SEARCH_RADIUS_INCREASE_FACTOR ^ n)
        (c * SEARCH_SAFETY_FACTOR) := by
  have hc : characteristic_length ≤ c := not_lt.mp h
  have hc0 : (0 : ℚ) ≤ c := le_trans char_length_pos.le hc
  have hcap : characteristic_length ≤ c * SEARCH_SAFETY_FACTOR := by
    calc characteristic_length ≤ c := hc
    _ = c * 1 := (mul_one c).symm
    _ ≤ c * SEARCH_SAFETY_FACTOR := by
        exact mul_le_mul_of_nonneg_left one_le_safety hc0
  have hcap0 : (0 : ℚ) ≤ c * SEARCH_SAFETY_FACTOR :=
    le_trans char_length_pos.le hcap
  intro n
  induction n with
  | zero =>
    simp only [search_radius_after, next_search_radius, if_neg h, pow_zero,
      mul_one]
    exact (min_eq_left hcap).symm
  | succ n ih =>
    have hIF : (0 : ℚ) ≤ SEARCH_RADIUS_INCREASE_FACTOR := by
      norm_num [SEARCH_RADIUS_INCREASE_FACTOR]
    have hone : (1 : ℚ) ≤ SEARCH_RADIUS_INCREASE_FACTOR := by
      norm_num [SEARCH_RADIUS_INCREASE_FACTOR]
    have hstep : c * SEARCH_SAFETY_FACTOR
        ≤ c * SEARCH_SAFETY_FACTOR * SEARCH_RADIUS_INCREASE_FACTOR := by
      calc c * SEARCH_SAFETY_FACTOR = c * SEARCH_SAFETY_FACTOR * 1 := by ring
      _ ≤ c * SEARCH_SAFETY_FACTOR * SEARCH_RADIUS_INCREASE_FACTOR :=
          mul_le_mul_of_nonneg_left hone hcap0
    simp only [search_radius_after, next_search_radius, ih]
    rw [min_mul_of_nonneg _ _ hIF, min_assoc,
      min_eq_right hstep]
    ring_nf

/-- C3 counterexample: for a circumradius of 99 * 10 ^ 16, i.e. just below
the characteristic length 10 ^ 18, the first-round search radius emitted by
get_radius_search_data is 1.05 times the circumradius, which exceeds the
characteristic length, while the claim prescribes min(1.05 * circumradius,
characteristic_length) = characteristic_length. -/
theorem first_search_radius_ne_spec_min :
    next_search_radius (99 * 10 ^ 16) none
      ≠ spec_first_search_radius (99 * 10 ^ 16) := by
  have h1 : (99 * 10 ^ 16 : ℚ) < characteristic_length := by
    norm_num [characteristic_length]
  have h2 : characteristic_length
      ≤ (99 * 10 ^ 16 : ℚ) * SEARCH_SAFETY_FACTOR := by
    norm_num [characteristic_length, SEARCH_SAFETY_FACTOR]
  rw [next_search_radius, if_pos h1, spec_first_search_radius,
    min_eq_right h2]
  norm_num [SEARCH_SAFETY_FACTOR, characteristic_length]

/-- C3 (amended): the first-round search radius is 1.05 * circumradius when
the circumradius is below the characteristic length and the characteristic
length otherwise; each later round multiplies the previous radius by 1.25
and caps it at 1.05 * circumradius; a searched tetra stays undecided exactly
while it still exists and its radius has not reached 1.05 * circumradius;
and the iterated radius reaches 1.05 * circumradius after finitely many
rounds, after which the tetra counts as decided. -/
theorem search_radius_schedule (circumradius : ℚ) :
    (next_search_radius circumradius none =
      if circumradius < characteristic_length then
        circumradius * SEARCH_SAFETY_FACTOR
      else characteristic_length) ∧
    (∀ radius, next_search_radius circumradius (some radius) =
      min (radius * SEARCH_RADIUS_INCREASE_FACTOR)
        (circumradius * SEARCH_SAFETY_FACTOR)) ∧
    (∀ containsTetra radius,
      remains_undecided containsTetra radius circumradius = true ↔
        containsTetra = true ∧
          radius < circumradius * SEARCH_SAFETY_FACTOR) ∧
    (∃ n, search_radius_after circumradius n
        = circumradius * SEARCH_SAFETY_FACTOR ∧
      search_radius_large_enough (search_radius_after circumradius n)
        circumradius = true) := by
  refine ⟨rfl, fun radius => rfl, ?_, ?_⟩
  · intro containsTetra radius
    simp [remains_undecided, search_radius_large_enough, not_le]
  · have hreach : ∃ n, search_radius_after circumradius n
        = circumradius * SEARCH_SAFETY_FACTOR := by
      by_cases h : circumradius < characteristic_length
      · exact ⟨0, by simp [search_radius_after, next_search_radius, if_pos h]⟩
      · have hIF : (1 : ℚ) < SEARCH_RADIUS_INCREASE_FACTOR := by
          norm_num [SEARCH_RADIUS_INCREASE_FACTOR]
        obtain ⟨n, hn⟩ := pow_unbounded_of_one_lt
          (circumradius * SEARCH_SAFETY_FACTOR / characteristic_length) hIF
        refine ⟨n, ?_⟩
        rw [search_radius_after_eq_min_of_ge circumradius h n]
        refine min_eq_right (le_of_lt ?_)
        rw [div_lt_iff₀ char_length_pos] at hn
        calc circumradius * SEARCH_SAFETY_FACTOR
            < SEARCH_RADIUS_INCREASE_FACTOR ^ n * characteristic_length := hn
        _ = characteristic_length * SEARCH_RADIUS_INCREASE_FACTOR ^ n := by
            ring
    obtain ⟨n, hn⟩ := hreach
    exact ⟨n, hn, by simp [search_radius_large_enough, hn]⟩

lemma orient2d_swap (p1 p2 p3 : Point2) :
    orient2d p2 p1 p3 = -orient2d p1 p2 p3 := by
  unfold orient2d determinant3x3
  ring

lemma orient3d_swap (p1 p2 p3 p4 : Point3) :
    orient3d p2 p1 p3 p4 = -orient3d p1 p2 p3 p4 := by
  unfold orient3d determinant3x3
  ring

/-- C4: provided the vertices read from the point arena are non-degenerate
(nonzero orientation determinant), the tetra actually stored by the 2D and
3D insertion routines is positively oriented: a would-be negatively oriented
tetra has its first two vertex indices (and the corresponding face entries)
swapped before being stored. -/
theorem inserted_tetras_positively_oriented
    (pts2 : ℕ → Point2) (t : Tetra2)
    (pts3 : ℕ → Point3) (q1 q2 q3 q4 : ℕ) (g1 g2 g3 g4 : TetraFace)
    (h2 : orient2d (pts2 t.p1) (pts2 t.p2) (pts2 t.p3) ≠ 0)
    (h3 : orient3d (pts3 q1) (pts3 q2) (pts3 q3) (pts3 q4) ≠ 0) :
    (0 < orient2d
      (pts2 (make_positively_oriented_tetra pts2 t).p1)
      (pts2 (make_positively_oriented_tetra pts2 t).p2)
      (pts2 (make_positively_oriented_tetra pts2 t).p3)) ∧
    (0 < orient3d
      (pts3 (insert_positively_oriented_tetra pts3 q1 q2 q3 q4
        g1 g2 g3 g4).p1)
      (pts3 (insert_positively_oriented_tetra pts3 q1 q2 q3 q4
        g1 g2 g3 g4).p2)
      (pts3 (insert_positively_oriented_tetra pts3 q1 q2 q3 q4
        g1 g2 g3 g4).p3)
      (pts3 (insert_positively_oriented_tetra pts3 q1 q2 q3 q4
        g1 g2 g3 g4).p4)) := by
  constructor
  · unfold make_positively_oriented_tetra
    split
    · assumption
    · simp only
      rw [orient2d_swap]
      rename_i hneg
      have := lt_of_le_of_ne (not_lt.mp hneg) h2
      linarith
  · unfold insert_positively_oriented_tetra
    split
    · assumption
    · simp only
      rw [orient3d_swap]
      rename_i hneg
      have := lt_of_le_of_ne (not_lt.mp hneg) h3
      linarith

/-- C4 witness: a concrete negatively oriented triangle and tetra; both
hypotheses hold and the stored simplices are positively oriented. -/
theorem inserted_tetras_positively_oriented_witness :
    (orient2d
        ((fun n => if n = 0 then (⟨0, 0⟩ : Point2)
          else if n = 1 then ⟨0, 1⟩ else ⟨1, 0⟩) 0)
        ((fun n => if n = 0 then (⟨0, 0⟩ : Point2)
          else if n = 1 then ⟨0, 1⟩ else ⟨1, 0⟩) 1)
        ((fun n => if n = 0 then (⟨0, 0⟩ : Point2)
          else if n = 1 then ⟨0, 1⟩ else ⟨1, 0⟩) 2) ≠ 0) ∧
    (orient3d
        ((fun n => if n = 0 then (⟨0, 0, 0⟩ : Point3)
          else if n = 1 then ⟨0, 1, 0⟩
          else if n = 2 then ⟨1, 0, 0⟩ else ⟨0, 0, 1⟩) 0)
        ((fun n => if n = 0 then (⟨0, 0, 0⟩ : Point3)
          else if n = 1 then ⟨0, 1, 0⟩
          else if n = 2 then ⟨1, 0, 0⟩ else ⟨0, 0, 1⟩) 1)
        ((fun n => if n = 0 then (⟨0, 0, 0⟩ : Point3)
          else if n = 1 then ⟨0, 1, 0⟩
          else if n = 2 then ⟨1, 0, 0⟩ else ⟨0, 0, 1⟩) 2)
        ((fun n => if n = 0 then (⟨0, 0, 0⟩ : Point3)
          else if n = 1 then ⟨0, 1, 0⟩
          else if n = 2 then ⟨1, 0, 0⟩ else ⟨0, 0, 1⟩) 3) ≠ 0) ∧
    (0 < orient2d
      ((fun n => if n = 0 then (⟨0, 0⟩ : Point2)
        else if n = 1 then ⟨0, 1⟩ else ⟨1, 0⟩)
        (make_positively_oriented_tetra
          (fun n => if n = 0 then (⟨0, 0⟩ : Point2)
            else if n = 1 then ⟨0, 1⟩ else ⟨1, 0⟩)
          ⟨0, 1, 2, ⟨0, none⟩, ⟨1, none⟩, ⟨2, none⟩⟩).p1)
      ((fun n => if n = 0 then (⟨0, 0⟩ : Point2)
        else if n = 1 then ⟨0, 1⟩ else ⟨1, 0⟩)
        (make_positively_oriented_tetra
          (fun n => if n = 0 then (⟨0, 0⟩ : Point2)
            else if n = 1 then ⟨0, 1⟩ else ⟨1, 0⟩)
          ⟨0, 1, 2, ⟨0, none⟩, ⟨1, none⟩, ⟨2, none⟩⟩).p2)
      ((fun n => if n = 0 then (⟨0, 0⟩ : Point2)
        else if n = 1 then ⟨0, 1⟩ else ⟨1, 0⟩)
        (make_positively_oriented_tetra
          (fun n => if n = 0 then (⟨0, 0⟩ : Point2)
            else if n = 1 then ⟨0, 1⟩ else ⟨1, 0⟩)
          ⟨0, 1, 2, ⟨0, none⟩, ⟨1, none⟩, ⟨2, none⟩⟩).p3)) := by
  have h2 : orient2d (⟨0, 0⟩ : Point2) ⟨0, 1⟩ ⟨1, 0⟩ ≠ 0 := by
    norm_num [orient2d, determinant3x3]
  have h3 : orient3d (⟨0, 0, 0⟩ : Point3) ⟨0, 1, 0⟩ ⟨1, 0, 0⟩ ⟨0, 0, 1⟩
      ≠ 0 := by
    norm_num [orient3d, determinant3x3]
  have main := inserted_tetras_positively_oriented
    (fun n => if n = 0 then (⟨0, 0⟩ : Point2)
      else if n = 1 then ⟨0, 1⟩ else ⟨1, 0⟩)
    ⟨0, 1, 2, ⟨0, none⟩, ⟨1, none⟩, ⟨2, none⟩⟩
    (fun n => if n = 0 then (⟨0, 0, 0⟩ : Point3)
      else if n = 1 then ⟨0, 1, 0⟩
      else if n = 2 then ⟨1, 0, 0⟩ else ⟨0, 0, 1⟩)
    0 1 2 3 ⟨0, none⟩ ⟨1, none⟩ ⟨2, none⟩ ⟨3, none⟩
    (by simpa using h2) (by simpa using h3)
  exact ⟨by simpa using h2, by simpa using h3, main.1⟩

lemma binary_search_completes (middle : ℕ → ℕ → ℕ)
    (eval : ℕ → ℕ → Ordering) (maxDepth : ℕ)
    (heval : ∀ pos, eval pos maxDepth = Ordering.eq) :
    ∀ fuel depth start endKey, depth ≤ maxDepth →
    maxDepth + 1 ≤ fuel + depth →
    ∃ pos n, binary_search middle eval fuel start endKey depth
        = some (pos, n) ∧ n + depth ≤ maxDepth + 1 := by
  intro fuel
  induction fuel with
  | zero => intro depth start endKey h1 h2; omega
  | succ fuel ih =>
    intro depth start endKey h1 h2
    by_cases hd : depth = maxDepth
    · subst hd
      exact ⟨middle start endKey, 1, by simp [binary_search, heval],
        by omega⟩
    · have hlt : depth < maxDepth := lt_of_le_of_ne h1 hd
      cases hcase : eval (middle start endKey) depth with
      | lt =>
        obtain ⟨pos, n, hsome, hb⟩ := ih (depth + 1) (middle start endKey)
          endKey (by omega) (by omega)
        exact ⟨pos, n + 1, by simp [binary_search, hcase, hsome], by omega⟩
      | gt =>
        obtain ⟨pos, n, hsome, hb⟩ := ih (depth + 1) start
          (middle start endKey) (by omega) (by omega)
        exact ⟨pos, n + 1, by simp [binary_search, hcase, hsome], by omega⟩
      | eq =>
        exact ⟨middle start endKey, 1, by simp [binary_search, hcase],
          by omega⟩

/-- C9: the cut-finding binary search terminates for every load counter and
every pair of start and end keys: the probe at depth maxDepth is
unconditionally classified Equal and therefore accepted, the recursion
increases the depth by one per probe, and started at depth 0 with fuel
maxDepth + 1 the search returns a cut after at most maxDepth + 1 counter
evaluations. -/
theorem cut_search_terminates (maxDepth : ℕ) (middle : ℕ → ℕ → ℕ)
    (load : ℕ → ℕ → ℚ) (target : ℚ) (segStart start endKey : ℕ) :
    (∀ l t : ℚ, get_search_result maxDepth l t maxDepth = Ordering.eq) ∧
    ∃ cut n, binary_search middle
        (fun cut depth =>
          get_search_result maxDepth (load segStart cut) target depth)
        (maxDepth + 1) start endKey 0 = some (cut, n) ∧
      n ≤ maxDepth + 1 := by
  constructor
  · intro l t
    simp [get_search_result]
  · obtain ⟨pos, n, h, hb⟩ := binary_search_completes middle
      (fun cut depth =>
        get_search_result maxDepth (load segStart cut) target depth)
      maxDepth (fun pos => by simp [get_search_result])
      (maxDepth + 1) 0 start endKey (by omega) (by omega)
    exact ⟨pos, n, h, by omega⟩

lemma decomposition_new_zero_load_eval :
    decomposition_new (fun _ _ => 0) 2
      = ⟨2, [2 ^ 63 - 1, 2 ^ 64 - 1], [0, 0]⟩ := by
  have hcut : ∀ start : ℕ, find_cut_for_next_segment (fun _ _ => 0) 0 start
      = key_middle start KEY_MAX_VALUE := by
    intro start
    unfold find_cut_for_next_segment
    norm_num [binary_search, get_search_result, KEY_MAX_DEPTH]
  have hmid : key_middle 0 KEY_MAX_VALUE = 2 ^ 63 - 1 := by
    norm_num [key_middle, KEY_MAX_VALUE]
  have hseg : find_segments (fun _ _ => (0 : ℚ)) 0 2
      = [(0, 2 ^ 63 - 1), (2 ^ 63 - 1, 2 ^ 64 - 1)] := by
    show find_segments_aux (fun _ _ => (0 : ℚ)) 0 1 0 = _
    simp only [find_segments_aux, hcut, hmid]
    norm_num [KEY_MAX_VALUE]
  unfold decomposition_new
  dsimp only
  rw [show ((0 : ℚ) / ((2 : ℕ) : ℚ)) = 0 from by norm_num, hseg]
  simp

/-- C7 counterexample: a load counter reporting zero load everywhere does
not make Decomposition.new fail; with two ranks it returns the decomposition
whose cuts are the first middle probe and the maximal key, with zero
loads. -/
theorem decomposition_new_zero_load_value :
    decomposition_new (fun _ _ => 0) 2
      = ⟨2, [2 ^ 63 - 1, 2 ^ 64 - 1], [0, 0]⟩ :=
  decomposition_new_zero_load_eval

/-- C7 (amended): Decomposition.new has no zero-load check and no error
path; called with a counter reporting zero total load it returns normally
(here with two ranks: two cuts and zero per-segment loads). The fatal
missing-particles error of the program is raised elsewhere, when the
simulation extent is computed from an empty particle set
(src/domain/mod.rs, check_particle_extent_system). -/
theorem decomposition_new_zero_load_returns_normally :
    (decomposition_new (fun _ _ => 0) 2).num_ranks = 2 ∧
    (decomposition_new (fun _ _ => 0) 2).cuts.length = 2 ∧
    (decomposition_new (fun _ _ => 0) 2).loads = [0, 0] := by
  rw [decomposition_new_zero_load_eval]
  exact ⟨rfl, rfl, rfl⟩

lemma countP_eq_of_iff_lt (p : ℕ → Bool) :
    ∀ (xs : List ℕ) (B : ℕ), B ≤ xs.length →
    (∀ i, i < xs.length → (p (xs.getD i 0) = true ↔ i < B)) →
    xs.countP p = B := by
  intro xs
  induction xs with
  | nil =>
    intro B hB _
    simpa using (Nat.le_zero.mp hB).symm
  | cons x xs ih =>
    intro B hB hiff
    cases B with
    | zero =>
      have hx : p x = false := by
        have h0 := hiff 0 (by simp)
        simpa using h0
      have htail : xs.countP p = 0 := by
        refine ih 0 (by omega) ?_
        intro i hi
        have := hiff (i + 1) (by simpa using Nat.succ_lt_succ hi)
        simpa using this
      simp [List.countP_cons, hx, htail]
    | succ m =>
      have hx : p x = true := by
        have h0 := hiff 0 (by simp)
        simpa using h0
      have htail : xs.countP p = m := by
        refine ih m (by simpa using Nat.lt_succ_iff.mp hB) ?_
        intro i hi
        have := hiff (i + 1) (by simpa using Nat.succ_lt_succ hi)
        simpa [Nat.succ_lt_succ_iff] using this
      simp [List.countP_cons, hx, htail]

lemma upper_bound_count_eq_of_split (xs : List ℕ) (key : ℕ) (B : ℕ)
    (hB : B ≤ xs.length)
    (hlow : ∀ i, i < B → xs.getD i 0 ≤ key)
    (hhigh : ∀ i, B ≤ i → i < xs.length → key < xs.getD i 0) :
    upper_bound_count xs key = B := by
  refine countP_eq_of_iff_lt _ xs B hB ?_
  intro i hi
  by_cases hiB : i < B
  · simp only [decide_eq_true_eq]
    exact ⟨fun _ => hiB, fun _ => hlow i hiB⟩
  · simp only [decide_eq_true_eq]
    constructor
    · intro hle
      exact absurd hle (not_le.mpr (hhigh i (not_lt.mp hiB) hi))
    · intro h
      exact absurd h hiB

lemma slice_bsearch_spec (xs : List ℕ) (key : ℕ)
    (hmono : ∀ i j, i < j → j < xs.length →
      xs.getD i 0 < xs.getD j 0) :
    ∀ fuel left right, right - left ≤ fuel → left ≤ xs.length →
    right ≤ xs.length →
    (∀ i, i < left → xs.getD i 0 < key) →
    (∀ i, right ≤ i → i < xs.length → key < xs.getD i 0) →
    (match slice_binary_search_aux xs key left right with
      | Except.ok x => x + 1
      | Except.error e => e) = upper_bound_count xs key := by
  intro fuel
  induction fuel with
  | zero =>
    intro left right hfuel hl hr hlow hhigh
    have hnot : ¬ left < right := by omega
    rw [slice_binary_search_aux, dif_neg hnot]
    exact (upper_bound_count_eq_of_split xs key left hl
      (fun i hi => le_of_lt (hlow i hi))
      (fun i hi hlen => hhigh i (by omega) hlen)).symm
  | succ fuel ih =>
    intro left right hfuel hl hr hlow hhigh
    by_cases h : left < right
    · rw [slice_binary_search_aux, dif_pos h]
      have hmidlt : left + (right - left) / 2 < right := by omega
      have hmidge : left ≤ left + (right - left) / 2 := by omega
      have hmidlen : left + (right - left) / 2 < xs.length := by omega
      rcases lt_trichotomy (xs.getD (left + (right - left) / 2) 0) key
        with hv | hv | hv
      · rw [if_pos hv]
        refine ih (left + (right - left) / 2 + 1) right (by omega)
          (by omega) hr ?_ hhigh
        intro i hi
        rcases Nat.lt_or_ge i (left + (right - left) / 2) with hlt | hge
        · exact lt_trans (hmono i _ hlt hmidlen) hv
        · have : i = left + (right - left) / 2 := by omega
          rw [this]
          exact hv
      · rw [if_neg (by rw [hv]; exact lt_irrefl key),
          if_neg (by rw [hv]; exact lt_irrefl key)]
        refine (upper_bound_count_eq_of_split xs key
          (left + (right - left) / 2 + 1) (by omega) ?_ ?_).symm
        · intro i hi
          rcases Nat.lt_or_ge i (left + (right - left) / 2) with hlt | hge
          · rw [← hv]
            exact le_of_lt (hmono i _ hlt hmidlen)
          · have hEq : i = left + (right - left) / 2 := by omega
            exact le_of_eq (by rw [hEq]; exact hv)
        · intro i hi hlen
          rw [← hv]
          exact hmono _ i (by omega) hlen
      · rw [if_neg (lt_asymm hv), if_pos hv]
        refine ih left (left + (right - left) / 2) (by omega) hl
          (by omega) hlow ?_
        intro i hi hlen
        rcases Nat.lt_or_ge (left + (right - left) / 2) i with hlt | hge
        · exact lt_trans hv (hmono _ i hlt hlen)
        · have : i = left + (right - left) / 2 := by omega
          rw [this]
          exact hv
    · rw [slice_binary_search_aux, dif_neg h]
      exact (upper_bound_count_eq_of_split xs key left hl
        (fun i hi => le_of_lt (hlow i hi))
        (fun i hi hlen => hhigh i (by omega) hlen)).symm

/-- C6: on a strictly increasing cuts vector, get_owning_rank computes the
upper bound of the key, that is the number of cuts less than or equal to
the key. -/
theorem get_owning_rank_eq_upper_bound (cuts : List ℕ) (key : ℕ)
    (hsorted : List.Pairwise (fun a b => a < b) cuts) :
    get_owning_rank cuts key = upper_bound_count cuts key := by
  have hmono : ∀ i j, i < j → j < cuts.length →
      cuts.getD i 0 < cuts.getD j 0 := by
    intro i j hij hj
    have hi : i < cuts.length := lt_trans hij hj
    rw [List.getD_eq_getElem _ _ hi, List.getD_eq_getElem _ _ hj]
    exact List.pairwise_iff_getElem.mp hsorted i j hi hj hij
  unfold get_owning_rank slice_binary_search
  exact slice_bsearch_spec cuts key hmono cuts.length 0 cuts.length
    (by omega) (by omega) (le_refl _)
    (fun i hi => absurd hi (Nat.not_lt_zero i))
    (fun i hi hlen => absurd hlen (by omega))

/-- C6 witness: for the strictly increasing cuts 3, 7, 10 and key 7 the
owning rank equals the number of cuts at most 7, namely 2. -/
theorem get_owning_rank_eq_upper_bound_witness :
    List.Pairwise (fun a b => a < b) [3, 7, 10] ∧
    get_owning_rank [3, 7, 10] 7 = upper_bound_count [3, 7, 10] 7 :=
  ⟨by decide, get_owning_rank_eq_upper_bound [3, 7, 10] 7 (by decide)⟩

lemma find_segments_aux_length (load : ℕ → ℕ → ℚ) (target : ℚ) :
    ∀ n start, (find_segments_aux load target n start).length = n + 1 := by
  intro n
  induction n with
  | zero => intro start; rfl
  | succ n ih =>
    intro start
    simp only [find_segments_aux, List.length_cons, ih]

lemma getLast?_cons_of_ne_nil {α : Type} (a : α) (l : List α)
    (h : l ≠ []) : (a :: l).getLast? = l.getLast? := by
  cases l with
  | nil => exact absurd rfl h
  | cons b t => exact List.getLast?_cons_cons

lemma find_segments_aux_last_cut (load : ℕ → ℕ → ℚ) (target : ℚ) :
    ∀ n start,
    ((find_segments_aux load target n start).map (fun s => s.2)).getLast?
      = some KEY_MAX_VALUE := by
  intro n
  induction n with
  | zero => intro start; rfl
  | succ n ih =>
    intro start
    simp only [find_segments_aux, List.map_cons]
    rw [getLast?_cons_of_ne_nil]
    · exact ih _
    · apply List.ne_nil_of_length_pos
      simp [find_segments_aux_length]

lemma getD_last_of_getLast? (xs : List ℕ) (v : ℕ)
    (h : xs.getLast? = some v) : xs.getD (xs.length - 1) 0 = v := by
  induction xs with
  | nil => simp at h
  | cons x xs ih =>
    cases xs with
    | nil =>
      simp only [List.getLast?_singleton, Option.some.injEq] at h
      simpa using h
    | cons y t =>
      rw [List.getLast?_cons_cons] at h
      have htail := ih h
      simpa using htail

lemma slice_bsearch_lt_length (xs : List ℕ) (key : ℕ)
    (hlastv : xs.getD (xs.length - 1) 0 = KEY_MAX_VALUE)
    (hkey : key < KEY_MAX_VALUE) :
    ∀ fuel left right, right - left ≤ fuel → left < xs.length →
    right ≤ xs.length →
    (match slice_binary_search_aux xs key left right with
      | Except.ok x => x + 1
      | Except.error e => e) < xs.length := by
  intro fuel
  induction fuel with
  | zero =>
    intro left right hfuel hl hr
    have hnot : ¬ left < right := by omega
    rw [slice_binary_search_aux, dif_neg hnot]
    exact hl
  | succ fuel ih =>
    intro left right hfuel hl hr
    by_cases h : left < right
    · rw [slice_binary_search_aux, dif_pos h]
      have hmidlt : left + (right - left) / 2 < right := by omega
      have hmidlen : left + (right - left) / 2 < xs.length := by omega
      rcases lt_trichotomy (xs.getD (left + (right - left) / 2) 0) key
        with hv | hv | hv
      · rw [if_pos hv]
        have hmidne : left + (right - left) / 2 ≠ xs.length - 1 := by
          intro hEq
          rw [hEq, hlastv] at hv
          omega
        exact ih (left + (right - left) / 2 + 1) right (by omega)
          (by omega) hr
      · rw [if_neg (by rw [hv]; exact lt_irrefl key),
          if_neg (by rw [hv]; exact lt_irrefl key)]
        have hmidne : left + (right - left) / 2 ≠ xs.length - 1 := by
          intro hEq
          rw [hEq, hlastv] at hv
          omega
        show left + (right - left) / 2 + 1 < xs.length
        omega
      · rw [if_neg (lt_asymm hv), if_pos hv]
        exact ih left (left + (right - left) / 2) (by omega) hl (by omega)
    · rw [slice_binary_search_aux, dif_neg h]
      exact hl

lemma slice_bsearch_finds_max (xs : List ℕ)
    (hmono : ∀ i j, i < j → j < xs.length →
      xs.getD i 0 < xs.getD j 0)
    (hbound : ∀ i, i < xs.length → xs.getD i 0 ≤ KEY_MAX_VALUE)
    (hlastv : xs.getD (xs.length - 1) 0 = KEY_MAX_VALUE) :
    ∀ fuel left, xs.length - left ≤ fuel → left < xs.length →
    slice_binary_search_aux xs KEY_MAX_VALUE left xs.length
      = Except.ok (xs.length - 1) := by
  intro fuel
  induction fuel with
  | zero => intro left hfuel hl; omega
  | succ fuel ih =>
    intro left hfuel hl
    rw [slice_binary_search_aux, dif_pos hl]
    have hmidlt : left + (xs.length - left) / 2 < xs.length := by omega
    rcases lt_trichotomy (xs.getD (left + (xs.length - left) / 2) 0)
      KEY_MAX_VALUE with hv | hv | hv
    · rw [if_pos hv]
      have hmidne : left + (xs.length - left) / 2 ≠ xs.length - 1 := by
        intro hEq
        rw [hEq, hlastv] at hv
        omega
      exact ih (left + (xs.length - left) / 2 + 1) (by omega) (by omega)
    · rw [if_neg (by rw [hv]; exact lt_irrefl KEY_MAX_VALUE),
        if_neg (by rw [hv]; exact lt_irrefl KEY_MAX_VALUE)]
      have hmidEq : left + (xs.length - left) / 2 = xs.length - 1 := by
        by_contra hne
        have hmidlt1 : left + (xs.length - left) / 2 < xs.length - 1 := by
          omega
        have := hmono (left + (xs.length - left) / 2) (xs.length - 1)
          hmidlt1 (by omega)
        rw [hlastv, hv] at this
        exact lt_irrefl KEY_MAX_VALUE this
      rw [hmidEq]
    · exact absurd hv (not_lt.mpr (hbound _ hmidlt))

/-- C10: the final segment of the decomposition always ends at the maximal
key and that end is stored as the last cut, with one cut per rank; on such
cuts (strictly increasing, within the 64-bit key range, ending in the
maximal key) get_owning_rank lands in the valid range for every key below
the maximal key, while for the maximal key itself it returns the number of
ranks, one past the valid rank indices. -/
theorem owning_rank_range_and_max_key (load : ℕ → ℕ → ℚ)
    (numRanks : ℕ) (h1 : 1 ≤ numRanks) (cuts : List ℕ) (key : ℕ)
    (hlast : cuts.getLast? = some KEY_MAX_VALUE)
    (hsorted : List.Pairwise (fun a b => a < b) cuts)
    (hbound : ∀ c ∈ cuts, c ≤ KEY_MAX_VALUE)
    (hkey : key < KEY_MAX_VALUE) :
    ((decomposition_new load numRanks).cuts.length = numRanks ∧
      (decomposition_new load numRanks).cuts.getLast?
        = some KEY_MAX_VALUE) ∧
    get_owning_rank cuts key < cuts.length ∧
    get_owning_rank cuts KEY_MAX_VALUE = cuts.length := by
  have hne : cuts ≠ [] := by
    intro hEq
    rw [hEq] at hlast
    simp at hlast
  have hlen : 1 ≤ cuts.length := List.length_pos.mpr hne
  have hlastv : cuts.getD (cuts.length - 1) 0 = KEY_MAX_VALUE :=
    getD_last_of_getLast? cuts KEY_MAX_VALUE hlast
  have hmono : ∀ i j, i < j → j < cuts.length →
      cuts.getD i 0 < cuts.getD j 0 := by
    intro i j hij hj
    have hi : i < cuts.length := lt_trans hij hj
    rw [List.getD_eq_getElem _ _ hi, List.getD_eq_getElem _ _ hj]
    exact List.pairwise_iff_getElem.mp hsorted i j hi hj hij
  have hboundD : ∀ i, i < cuts.length → cuts.getD i 0 ≤ KEY_MAX_VALUE := by
    intro i hi
    rw [List.getD_eq_getElem _ _ hi]
    exact hbound _ (List.getElem_mem hi)
  refine ⟨⟨?_, ?_⟩, ?_, ?_⟩
  · unfold decomposition_new find_segments
    simp only [List.length_map, find_segments_aux_length]
    omega
  · unfold decomposition_new find_segments
    exact find_segments_aux_last_cut load _ (numRanks - 1) 0
  · unfold get_owning_rank slice_binary_search
    exact slice_bsearch_lt_length cuts key hlastv hkey cuts.length 0
      cuts.length (by omega) (by omega) (le_refl _)
  · unfold get_owning_rank slice_binary_search
    rw [slice_bsearch_finds_max cuts hmono hboundD hlastv cuts.length 0
      (by omega) (by omega)]
    show cuts.length - 1 + 1 = cuts.length
    omega

/-- C10 witness: with the zero counter and two ranks the produced cuts end
in the maximal key; on the concrete cuts 5 and 2^64 - 1 the key 3 is mapped
to rank 0, inside the valid range, and the maximal key is mapped to rank 2,
one past it. -/
theorem owning_rank_range_and_max_key_witness :
    (1 ≤ 2 ∧
      ([5, KEY_MAX_VALUE].getLast? = some KEY_MAX_VALUE) ∧
      List.Pairwise (fun a b => a < b) [5, KEY_MAX_VALUE] ∧
      (∀ c ∈ [5, KEY_MAX_VALUE], c ≤ KEY_MAX_VALUE) ∧
      3 < KEY_MAX_VALUE) ∧
    (((decomposition_new (fun _ _ => 0) 2).cuts.length = 2 ∧
        (decomposition_new (fun _ _ => 0) 2).cuts.getLast?
          = some KEY_MAX_VALUE) ∧
      get_owning_rank [5, KEY_MAX_VALUE] 3
        < ([5, KEY_MAX_VALUE] : List ℕ).length ∧
      get_owning_rank [5, KEY_MAX_VALUE] KEY_MAX_VALUE
        = ([5, KEY_MAX_VALUE] : List ℕ).length) :=
  ⟨⟨by decide, by decide, by decide, by decide, by decide⟩,
    owning_rank_range_and_max_key (fun _ _ => 0) 2 (by decide)
      [5, KEY_MAX_VALUE] 3 (by decide) (by decide) (by decide) (by decide)⟩

end Tenet
